import Mathlib

/-!
Verification development for the SOG (Spatially Ordered Gaussians) encoder
in src/modal/sharp_api.py.

Machine floating-point numbers are modelled by exact rationals.  External
library primitives used by the encoder (numpy argsort, sklearn KMeans, the
float sqrt and log1p functions, the PIL WebP serializer) are not part of the
repository's source; they enter the embedding as explicit function
parameters, and the theorems constrain them by their documented contracts.
-/

abbrev V3 := Fin 3 → ℚ

abbrev Q4 := Fin 4 → ℚ

def v3zero : V3 := fun _ => 0

def q4zero : Q4 := fun _ => 0

/-- Model of np.sign on rationals. -/
def npSign (x : ℚ) : ℚ := if 0 < x then 1 else if x < 0 then -1 else 0

/-- Model of the astype(np.uint8) cast applied to the nonnegative floats
produced by the quaternion and opacity encoders: truncation, wrapping
modulo 256. -/
def toU8 (x : ℚ) : Nat := Int.toNat ⌊x⌋ % 256

/-- Model of the astype(np.uint16) cast in the position encoder. -/
def toU16 (x : ℚ) : Nat := Int.toNat ⌊x⌋ % 65536

/-- First index of the minimum of a list of rationals, as computed by
np.argmin along an axis: on ties the earliest index wins. -/
def idxOfMin : List ℚ → Nat
  | [] => 0
  | [_] => 0
  | a :: b :: l =>
    if a ≤ (b :: l).getD (idxOfMin (b :: l)) 0 then 0 else idxOfMin (b :: l) + 1

/-- First index of the maximum among the four values of a quadruple, as
computed by np.argmax along the last axis (earliest index on ties). -/
def argmax4 (v : Q4) : Fin 4 :=
  if v 1 ≤ v 0 ∧ v 2 ≤ v 0 ∧ v 3 ≤ v 0 then 0
  else if v 2 ≤ v 1 ∧ v 3 ≤ v 1 then 1
  else if v 3 ≤ v 2 then 2
  else 3

/-! ## Quaternion encoder (encode_quaternions_sog) -/
/-- The indices of the three kept quaternion components, in ascending order,
mirroring the list comprehension over j in range(4) with j distinct from the
dropped index. -/
def keptIdx (d : Fin 4) : List (Fin 4) := (List.finRange 4).filter (fun j => j ≠ d)

/-- The divisor used to normalize a quaternion: np.where(norms > 0, norms, 1).
The parameter sqrtFn models the float square root inside np.linalg.norm. -/
def quatNormDivisor (sqrtFn : ℚ → ℚ) (q : Q4) : ℚ :=
  let n := sqrtFn (q 0 ^ 2 + q 1 ^ 2 + q 2 ^ 2 + q 3 ^ 2)
  if 0 < n then n else 1

/-- The sign multiplier applied to the whole quaternion: np.sign of the
dropped component with zeros replaced by 1. -/
def quatSignFlip (x : ℚ) : ℚ := if npSign x = 0 then 1 else npSign x

/-- Per-row semantics of encode_quaternions_sog.  The parameter sqrt2over2
models the float constant np.sqrt(2)/2.  Output: three mapped bytes followed
by the dropped-component index. -/
def encode_quaternions_sog (sqrtFn : ℚ → ℚ) (sqrt2over2 : ℚ) (q : Q4) :
    List Nat :=
  let qn : Q4 := fun i => q i / quatNormDivisor sqrtFn q
  let d : Fin 4 := argmax4 (fun i => |qn i|)
  let s : ℚ := quatSignFlip (qn d)
  let qs : Q4 := fun i => qn i * s
  ((keptIdx d).map fun j =>
    toU8 ((min (max (qs j) (-sqrt2over2)) sqrt2over2 / sqrt2over2 + 1) * (255 / 2)))
    ++ [d.val]

/-! ## Morton order (compute_morton_order) -/
/-- Bit spreading: 10 bits of x spread into 30 bits, two zero bits between
consecutive source bits. -/
def spread_bits (x : Nat) : Nat :=
  let x1 := (x ||| (x <<< 16)) &&& 0x030000FF
  let x2 := (x1 ||| (x1 <<< 8)) &&& 0x0300F00F
  let x3 := (x2 ||| (x2 <<< 4)) &&& 0x030C30C3
  (x3 ||| (x3 <<< 2)) &&& 0x09249249

/-- Minimum of a list of rationals (meaningful for nonempty lists, the only
way it is invoked; numpy raises on an empty reduction and the callers model
that separately). -/
def listMin (l : List ℚ) : ℚ := l.foldl min (l.headD 0)

def listMax (l : List ℚ) : ℚ := l.foldl max (l.headD 0)

/-- Per-axis quantization of positions to 10-bit integers inside
compute_morton_order: normalize by the batch min/max (zero ranges forced
to 1), scale by 1023, truncate, clip to 0..1023. -/
def mortonQuant (ps : List V3) : List (Fin 3 → Nat) :=
  let mins : V3 := fun a => listMin (ps.map (fun p => p a))
  let maxs : V3 := fun a => listMax (ps.map (fun p => p a))
  let ranges : V3 := fun a =>
    if maxs a - mins a = 0 then 1 else maxs a - mins a
  ps.map fun p a => min 1023 (Int.toNat ⌊(p a - mins a) / ranges a * 1023⌋)

/-- The 30-bit Morton code of each position. -/
def mortonCodes (ps : List V3) : List Nat :=
  (mortonQuant ps).map fun qv =>
    spread_bits (qv 0) ||| (spread_bits (qv 1) <<< 1) ||| (spread_bits (qv 2) <<< 2)

/-- compute_morton_order: the call positions.min(axis=0) raises on an empty
batch (modelled by the error case); otherwise the result is np.argsort of
the Morton codes.  np.argsort (default kind, quicksort) is external numpy
code and enters as the parameter argsortFn; its documented contract — it
returns some permutation that sorts the array, with no stability
guarantee — is imposed by the theorems through the SortsBy predicate. -/
def compute_morton_order (argsortFn : List Nat → List Nat) (ps : List V3) :
    Except String (List Nat) :=
  if ps = [] then
    .error "zero-size array to reduction operation minimum which has no identity"
  else .ok (argsortFn (mortonCodes ps))

/-- The documented contract of np.argsort with its default kind: the output
is a permutation of the index range and reading the array through it is
nondecreasing.  Stability on ties is NOT guaranteed. -/
def SortsBy (codes : List Nat) (p : List Nat) : Prop :=
  p.Perm (List.range codes.length) ∧
    (p.map fun i => codes.getD i 0).Sorted (· ≤ ·)

instance (codes p : List Nat) : Decidable (SortsBy codes p) := by
  unfold SortsBy List.Sorted
  infer_instance

/-! ## Codebook builder (build_codebook) -/
/-- build_codebook: count the distinct values, shrink the requested cluster
count to that number, run the (external) k-means fit, then zero-pad the
centroid table back up to n_clusters entries when the actual cluster count
is smaller.  The sklearn KMeans fit_predict call is external library code
and enters as the parameter kmFit. -/
def build_codebook (kmFit : List ℚ → Nat → List ℚ × List Nat)
    (values : List ℚ) (n_clusters : Nat) : List ℚ × List Nat :=
  let n_unique := values.dedup.length
  let actual_clusters := min n_clusters n_unique
  let r := kmFit values actual_clusters
  let codebook :=
    if actual_clusters < n_clusters then
      r.1 ++ List.replicate (n_clusters - actual_clusters) 0
    else r.1
  (codebook, r.2)

/-- Modelled from the spec: the k-means clustering step (sklearn KMeans with
a fixed seed and bounded iterations) is external library code absent from
the repository.  In the regime the spec describes for the padding path —
the requested cluster count equals the number of distinct input values —
k-means converges with each distinct value as its own centroid, and labels
every value by the centroid it coincides with. -/
def kmeansFitExact (values : List ℚ) (_nc : Nat) : List ℚ × List Nat :=
  (values.dedup, values.map fun v => values.dedup.indexOf v)

/-! ## Scale and color encoders -/
/-- encode_scales_sog: one shared codebook over the flattened scales, then a
vectorized nearest-centroid lookup (np.argmin of absolute distances over the
full, possibly zero-padded, 256-entry codebook) per axis. -/
def encode_scales_sog (kmFit : List ℚ → Nat → List ℚ × List Nat)
    (scales : List V3) : List (Fin 3 → Nat) × List ℚ :=
  let all_scales := (scales.map fun s => [s 0, s 1, s 2]).flatten
  let codebook := (build_codebook kmFit all_scales 256).1
  (scales.map fun s a => idxOfMin (codebook.map fun e => |s a - e|), codebook)

/-- encode_colors_opacity_sog: one shared codebook over the flattened color
channels; the fourth output channel is the opacity clipped to 0..1 and
uniformly quantized to 8 bits. -/
def encode_colors_opacity_sog (kmFit : List ℚ → Nat → List ℚ × List Nat)
    (colors : List V3) (opacities : List ℚ) : List (Fin 4 → Nat) × List ℚ :=
  let all_colors := (colors.map fun c => [c 0, c 1, c 2]).flatten
  let color_codebook := (build_codebook kmFit all_colors 256).1
  ((colors.zip opacities).map fun co (a : Fin 4) =>
      if ha : a.val < 3 then
        idxOfMin (color_codebook.map fun e => |co.1 ⟨a.val, ha⟩ - e|)
      else toU8 (min 1 (max 0 co.2) * 255),
   color_codebook)

/-! ## Position encoder (encode_positions_sog) -/
/-- The signed-log transform sign(x) * log1p(abs(x)); the float log1p is
external and enters as a parameter. -/
def log_transform (log1pFn : ℚ → ℚ) (x : ℚ) : ℚ := npSign x * log1pFn |x|

def posLog (log1pFn : ℚ → ℚ) (ps : List V3) : List V3 :=
  ps.map fun p a => log_transform log1pFn (p a)

def posMins (log1pFn : ℚ → ℚ) (ps : List V3) : V3 :=
  fun a => listMin ((posLog log1pFn ps).map fun p => p a)

def posMaxs (log1pFn : ℚ → ℚ) (ps : List V3) : V3 :=
  fun a => listMax ((posLog log1pFn ps).map fun p => p a)

/-- The per-axis quantization range maxs - mins. -/
def posRange (log1pFn : ℚ → ℚ) (ps : List V3) : V3 :=
  fun a => posMaxs log1pFn ps a - posMins log1pFn ps a

/-- The range after the degenerate-axis fix ranges[ranges == 0] = 1. -/
def posRangeAdj (log1pFn : ℚ → ℚ) (ps : List V3) : V3 :=
  fun a => if posRange log1pFn ps a = 0 then 1 else posRange log1pFn ps a

/-- The 16-bit position codes: normalize into the per-axis range, scale by
65535, cast to uint16, clip to 0..65535. -/
def posQuant (log1pFn : ℚ → ℚ) (ps : List V3) : List (Fin 3 → Nat) :=
  (posLog log1pFn ps).map fun p a =>
    min 65535 (toU16 ((p a - posMins log1pFn ps a) / posRangeAdj log1pFn ps a * 65535))

/-- encode_positions_sog: the reductions log_positions.min/max(axis=0) raise
on an empty batch (the error case); otherwise split each 16-bit code into a
lower byte and an upper byte and report the per-axis ranges. -/
def encode_positions_sog (log1pFn : ℚ → ℚ) (ps : List V3) :
    Except String (List (Fin 3 → Nat) × List (Fin 3 → Nat) × V3 × V3) :=
  if ps = [] then
    .error "zero-size array to reduction operation minimum which has no identity"
  else
    .ok ((posQuant log1pFn ps).map fun p a => p a % 256,
         (posQuant log1pFn ps).map fun p a => p a / 256,
         posMins log1pFn ps, posMaxs log1pFn ps)

/-! ## Plane dimensions and padding (save_sog_bytes) -/
/-- The least natural number whose square is at least n; exact value of
ceil(sqrt(n)) for the real square root. -/
def natCeilSqrt (n : Nat) : Nat :=
  if Nat.sqrt n * Nat.sqrt n = n then Nat.sqrt n else Nat.sqrt n + 1

/-- Plane width int(np.ceil(np.sqrt(n) / 4) * 4), the float sqrt and ceil
modelled exactly (ceil(x / 4) = ceil(ceil(x) / 4) for real x). -/
def sogWidth (n : Nat) : Nat := 4 * ((natCeilSqrt n + 3) / 4)

/-- Plane height int(np.ceil(n / width)), exact ceiling division. -/
def sogHeight (n : Nat) : Nat := (n + sogWidth n - 1) / sogWidth n

/-- Zero-padding of a per-Gaussian array up to the full pixel count, as done
by np.vstack([arr, np.zeros((pad_size, k))]). -/
def padTo {V : Type} (total : Nat) (rows : List V) (z : V) : List V :=
  rows ++ List.replicate (total - rows.length) z

/-- Fancy indexing arr[morton_order]. -/
def applyPerm {V : Type} (ord : List Nat) (xs : List V) (z : V) : List V :=
  ord.map fun i => xs.getD i z

/-! ## Archive assembly (save_sog_bytes) -/
structure SogMeta where
  version : List Nat
  numGaussians : Nat
  imageWidth : Nat
  imageHeight : Nat
  meansMins : V3
  meansMaxs : V3
  scalesCodebook : List ℚ
  sh0Codebook : List ℚ
  focalLength : ℚ
  cameraImageWidth : Nat
  cameraImageHeight : Nat

/-- A tar entry payload: either the JSON metadata document or a losslessly
compressed image plane, represented by its pixel rows. -/
inductive SogPayload where
  | json (meta : SogMeta)
  | webp (rows : List (List Nat))

/-- array_to_webp_bytes reduced to its observable effect: the reshape to
(height, width) pixels fails unless the row count matches the pixel count;
the lossless WebP payload is represented by the pixel data itself. -/
def toWebp (rows : List (List Nat)) (width height : Nat) :
    Except String (List (List Nat)) :=
  if rows.length = width * height then .ok rows else .error "cannot reshape array"

/-- The external collaborators of save_sog_bytes, passed as explicit
parameters: float sqrt and log1p, the float constant np.sqrt(2)/2, the
sklearn KMeans fit_predict call, and np.argsort. -/
structure SogEnv where
  sqrtFn : ℚ → ℚ
  log1pFn : ℚ → ℚ
  sqrt2over2 : ℚ
  kmFit : List ℚ → Nat → List ℚ × List Nat
  argsortFn : List Nat → List Nat

/-- save_sog_bytes over the already-extracted per-Gaussian arrays (positions,
log-scales, quaternions, SH0 colors, opacities): Morton reorder, plane
dimension selection, zero-padding, the four attribute encoders, the five
WebP planes, and the tar archive with meta.json first. -/
def save_sog_bytes (env : SogEnv) (xyz scalesLog : List V3) (quats : List Q4)
    (colorsSh : List V3) (opacities : List ℚ) (f_px : ℚ)
    (imageHeight imageWidth : Nat) : Except String (List (String × SogPayload)) :=
  match compute_morton_order env.argsortFn xyz with
  | .error e => .error e
  | .ok morton =>
    let num_gaussians := xyz.length
    let xyzS := applyPerm morton xyz v3zero
    let scalesS := applyPerm morton scalesLog v3zero
    let quatsS := applyPerm morton quats q4zero
    let colorsS := applyPerm morton colorsSh v3zero
    let opacS := applyPerm morton opacities 0
    let width := sogWidth num_gaussians
    if width = 0 then .error "division by zero"
    else
      let height := sogHeight num_gaussians
      let total := width * height
      let xyzP := padTo total xyzS v3zero
      let scalesP := padTo total scalesS v3zero
      let quatsP := padTo total quatsS q4zero
      let colorsP := padTo total colorsS v3zero
      let opacP := padTo total opacS 0
      match encode_positions_sog env.log1pFn xyzP with
      | .error e => .error e
      | .ok (means_l, means_u, pos_mins, pos_maxs) =>
        let quats_encoded := quatsP.map (encode_quaternions_sog env.sqrtFn env.sqrt2over2)
        let scalesRes := encode_scales_sog env.kmFit scalesP
        let sh0Res := encode_colors_opacity_sog env.kmFit colorsP opacP
        match toWebp (means_l.map fun r => [r 0, r 1, r 2]) width height,
              toWebp (means_u.map fun r => [r 0, r 1, r 2]) width height,
              toWebp quats_encoded width height,
              toWebp (scalesRes.1.map fun r => [r 0, r 1, r 2]) width height,
              toWebp (sh0Res.1.map fun r => [r 0, r 1, r 2, r 3]) width height with
        | .ok pml, .ok pmu, .ok pq, .ok psc, .ok psh =>
          .ok [("meta.json", .json
                { version := [1, 0, 0]
                  numGaussians := num_gaussians
                  imageWidth := width
                  imageHeight := height
                  meansMins := pos_mins
                  meansMaxs := pos_maxs
                  scalesCodebook := scalesRes.2
                  sh0Codebook := sh0Res.2
                  focalLength := f_px
                  cameraImageWidth := imageWidth
                  cameraImageHeight := imageHeight }),
               ("means_l.webp", .webp pml), ("means_u.webp", .webp pmu),
               ("quats.webp", .webp pq), ("scales.webp", .webp psc),
               ("sh0.webp", .webp psh)]
        | .error e, _, _, _, _ => .error e
        | _, .error e, _, _, _ => .error e
        | _, _, .error e, _, _ => .error e
        | _, _, _, .error e, _ => .error e
        | _, _, _, _, .error e => .error e

/-! ## Rotation-matrix-to-quaternion conversion (Shepperd's method) -/
abbrev M3 := Fin 3 → Fin 3 → ℚ

def shepperdTrace (m : M3) : ℚ := m 0 0 + m 1 1 + m 2 2

/-- Branch mask 1: trace positive (w derived first). -/
def mask1 (m : M3) : Prop := 0 < shepperdTrace m

/-- Branch mask 2: trace not positive and m00 strictly dominates the
diagonal (x derived first). -/
def mask2 (m : M3) : Prop := ¬mask1 m ∧ m 0 0 > m 1 1 ∧ m 0 0 > m 2 2

/-- Branch mask 3: masks 1 and 2 false and m11 > m22 (y derived first). -/
def mask3 (m : M3) : Prop := ¬mask1 m ∧ ¬mask2 m ∧ m 1 1 > m 2 2

/-- Branch mask 4: all other masks false (z derived first). -/
def mask4 (m : M3) : Prop := ¬mask1 m ∧ ¬mask2 m ∧ ¬mask3 m

/-- The masked per-row quaternion assignments of
quaternions_from_rotation_matrices_gpu before the final normalization;
sqrtFn models torch.sqrt. -/
def shepperdRaw (sqrtFn : ℚ → ℚ) (m : M3) : Q4 :=
  if 0 < shepperdTrace m then
    let s := sqrtFn (shepperdTrace m + 1) * 2
    ![0.25 * s, (m 2 1 - m 1 2) / s, (m 0 2 - m 2 0) / s, (m 1 0 - m 0 1) / s]
  else if m 0 0 > m 1 1 ∧ m 0 0 > m 2 2 then
    let s := sqrtFn (1 + m 0 0 - m 1 1 - m 2 2) * 2
    ![(m 2 1 - m 1 2) / s, 0.25 * s, (m 0 1 + m 1 0) / s, (m 0 2 + m 2 0) / s]
  else if m 1 1 > m 2 2 then
    let s := sqrtFn (1 + m 1 1 - m 0 0 - m 2 2) * 2
    ![(m 0 2 - m 2 0) / s, (m 0 1 + m 1 0) / s, 0.25 * s, (m 1 2 + m 2 1) / s]
  else
    let s := sqrtFn (1 + m 2 2 - m 0 0 - m 1 1) * 2
    ![(m 1 0 - m 0 1) / s, (m 0 2 + m 2 0) / s, (m 1 2 + m 2 1) / s, 0.25 * s]

/-- The full conversion: masked assignments followed by the unconditional
normalization by the quaternion norm. -/
def quaternions_from_rotation_matrices_gpu (sqrtFn : ℚ → ℚ) (m : M3) : Q4 :=
  let qr := shepperdRaw sqrtFn m
  fun i => qr i / sqrtFn (qr 0 ^ 2 + qr 1 ^ 2 + qr 2 ^ 2 + qr 3 ^ 2)

theorem idxOfMin_cons_cons (a b : ℚ) (l : List ℚ) :
    idxOfMin (a :: b :: l) =
      if a ≤ (b :: l).getD (idxOfMin (b :: l)) 0 then 0
      else idxOfMin (b :: l) + 1 := rfl

theorem idxOfMin_lt_length : ∀ (l : List ℚ), l ≠ [] → idxOfMin l < l.length
  | [_], _ => by simp [idxOfMin]
  | a :: b :: l, _ => by
    have ih := idxOfMin_lt_length (b :: l) (by simp)
    rw [idxOfMin_cons_cons]
    by_cases h : a ≤ (b :: l).getD (idxOfMin (b :: l)) 0
    · rw [if_pos h]
      simp
    · rw [if_neg h]
      simp only [List.length_cons] at ih ⊢
      omega

theorem idxOfMin_le_getD : ∀ (l : List ℚ) (j : Nat), j < l.length →
    l.getD (idxOfMin l) 0 ≤ l.getD j 0
  | [a], j, hj => by
    have : j = 0 := by simpa using hj
    subst this
    simp [idxOfMin]
  | a :: b :: l, j, hj => by
    rw [idxOfMin_cons_cons]
    by_cases h : a ≤ (b :: l).getD (idxOfMin (b :: l)) 0
    · rw [if_pos h]
      cases j with
      | zero => simp
      | succ j =>
        have ih := idxOfMin_le_getD (b :: l) j (by simpa using hj)
        rw [List.getD_cons_zero, List.getD_cons_succ]
        exact le_trans h ih
    · rw [if_neg h]
      cases j with
      | zero =>
        rw [List.getD_cons_succ, List.getD_cons_zero]
        exact le_of_lt (lt_of_not_le h)
      | succ j =>
        have ih := idxOfMin_le_getD (b :: l) j (by simpa using hj)
        rw [List.getD_cons_succ, List.getD_cons_succ]
        exact ih

theorem getD_lt_of_lt_idxOfMin : ∀ (l : List ℚ) (j : Nat), j < idxOfMin l →
    l.getD (idxOfMin l) 0 < l.getD j 0
  | [], j, hj => by simp [idxOfMin] at hj
  | [a], j, hj => by simp [idxOfMin] at hj
  | a :: b :: l, j, hj => by
    rw [idxOfMin_cons_cons] at hj ⊢
    by_cases h : a ≤ (b :: l).getD (idxOfMin (b :: l)) 0
    · rw [if_pos h] at hj
      exact absurd hj (by omega)
    · rw [if_neg h] at hj ⊢
      cases j with
      | zero =>
        rw [List.getD_cons_succ, List.getD_cons_zero]
        exact lt_of_not_le h
      | succ j =>
        have hj' : j < idxOfMin (b :: l) := by omega
        have ih := getD_lt_of_lt_idxOfMin (b :: l) j hj'
        rw [List.getD_cons_succ, List.getD_cons_succ]
        exact ih

theorem idxOfMin_le (l : List ℚ) (i : Nat) (hi : i < l.length)
    (hmin : ∀ j, j < l.length → l.getD i 0 ≤ l.getD j 0) : idxOfMin l ≤ i := by
  by_contra hlt
  push_neg at hlt
  have h1 := getD_lt_of_lt_idxOfMin l i hlt
  have hne : l ≠ [] := by
    intro h
    subst h
    simp at hi
  have h2 := hmin (idxOfMin l) (idxOfMin_lt_length l hne)
  exact absurd h2 (not_le_of_lt h1)

theorem le_argmax4 (v : Q4) (i : Fin 4) : v i ≤ v (argmax4 v) := by
  unfold argmax4
  split_ifs with h1 h2 h3
  · obtain ⟨a1, a2, a3⟩ := h1
    fin_cases i <;> simp_all
  · push_neg at h1
    obtain ⟨b2, b3⟩ := h2
    have h0 : v 0 ≤ v 1 := by
      by_contra hc
      push_neg at hc
      have := h1 hc.le (le_trans b2 hc.le)
      linarith
    fin_cases i <;> simp_all
  · push_neg at h1 h2
    have hb : v 1 ≤ v 2 := by
      by_contra hc
      push_neg at hc
      have := h2 hc.le
      linarith
    have ha : v 0 ≤ v 2 := by
      by_contra hc
      push_neg at hc
      have := h1 (le_trans hb hc.le) hc.le
      linarith
    fin_cases i <;> simp_all
  · push_neg at h1 h2 h3
    have hb2 : v 2 ≤ v 3 := h3.le
    have hb1 : v 1 ≤ v 3 := by
      by_contra hc
      push_neg at hc
      have := h2 (le_trans h3.le hc.le)
      linarith
    have hb0 : v 0 ≤ v 3 := by
      by_contra hc
      push_neg at hc
      have := h1 (le_trans hb1 hc.le) (le_trans hb2 hc.le)
      linarith
    fin_cases i <;> simp_all

/-! ## Dimension lemmas -/
theorem natCeilSqrt_le_sq (n : Nat) : n ≤ natCeilSqrt n * natCeilSqrt n := by
  unfold natCeilSqrt
  by_cases h : Nat.sqrt n * Nat.sqrt n = n
  · rw [if_pos h]
    omega
  · rw [if_neg h]
    have h2 : n + 1 ≤ (Nat.sqrt n + 1) * (Nat.sqrt n + 1) := Nat.succ_le_succ_sqrt n
    omega

theorem natCeilSqrt_min (n k : Nat) (hk : n ≤ k * k) : natCeilSqrt n ≤ k := by
  unfold natCeilSqrt
  by_cases h : Nat.sqrt n * Nat.sqrt n = n
  · rw [if_pos h]
    have h2 : Nat.sqrt n ≤ Nat.sqrt (k * k) := Nat.sqrt_le_sqrt hk
    rwa [Nat.sqrt_eq k] at h2
  · rw [if_neg h]
    by_contra hc
    push_neg at hc
    have hks : k ≤ Nat.sqrt n := by omega
    have h1 : k * k ≤ Nat.sqrt n * Nat.sqrt n := Nat.mul_le_mul hks hks
    have h2 : Nat.sqrt n * Nat.sqrt n ≤ n := Nat.sqrt_le n
    omega

theorem natCeilSqrt_le_sogWidth (n : Nat) : natCeilSqrt n ≤ sogWidth n := by
  unfold sogWidth
  omega

theorem le_sogWidth_sq (n : Nat) : n ≤ sogWidth n * sogWidth n :=
  le_trans (natCeilSqrt_le_sq n)
    (Nat.mul_le_mul (natCeilSqrt_le_sogWidth n) (natCeilSqrt_le_sogWidth n))

theorem sogWidth_pos (n : Nat) (hn : 1 ≤ n) : 0 < sogWidth n := by
  have h1 : 1 ≤ natCeilSqrt n := by
    by_contra hc
    push_neg at hc
    have h0 : natCeilSqrt n = 0 := by omega
    have h2 := natCeilSqrt_le_sq n
    rw [h0] at h2
    omega
  unfold sogWidth
  omega

theorem le_sogWidth_mul_sogHeight (n : Nat) (hn : 1 ≤ n) :
    n ≤ sogWidth n * sogHeight n := by
  have hw := sogWidth_pos n hn
  unfold sogHeight
  have h1 := Nat.div_add_mod (n + sogWidth n - 1) (sogWidth n)
  have h2 := Nat.mod_lt (n + sogWidth n - 1) hw
  omega

theorem sogHeight_min (n h' : Nat) (hn : 1 ≤ n) (hh : n ≤ sogWidth n * h') :
    sogHeight n ≤ h' := by
  have hw := sogWidth_pos n hn
  unfold sogHeight
  have h1 : (n + sogWidth n - 1) / sogWidth n < h' + 1 := by
    rw [Nat.div_lt_iff_lt_mul hw]
    have he : (h' + 1) * sogWidth n = sogWidth n * h' + sogWidth n := by ring
    rw [he]
    omega
  omega

/-- C7: for every Gaussian count n at least 1, the plane packer's width is
the least multiple of 4 whose square covers n (the exact value of
ceil(sqrt(n)/4)*4), its height is the least count of width-sized rows
covering n (the exact value of ceil(n/width)), the pixel grid covers all n
Gaussians, and every padding entry appended to fill the grid — for the
position, log-scale, quaternion, color and opacity arrays alike — is the
zero value supplied by np.zeros. -/
theorem sog_plane_dims (n : Nat) (hn : 1 ≤ n) :
    IsLeast {w | w % 4 = 0 ∧ n ≤ w * w} (sogWidth n) ∧
    IsLeast {h | n ≤ sogWidth n * h} (sogHeight n) ∧
    n ≤ sogWidth n * sogHeight n ∧
    (∀ rows : List V3, rows.length = n →
      (padTo (sogWidth n * sogHeight n) rows v3zero).drop n =
        List.replicate (sogWidth n * sogHeight n - n) v3zero) ∧
    (∀ rows : List Q4, rows.length = n →
      (padTo (sogWidth n * sogHeight n) rows q4zero).drop n =
        List.replicate (sogWidth n * sogHeight n - n) q4zero) ∧
    (∀ rows : List ℚ, rows.length = n →
      (padTo (sogWidth n * sogHeight n) rows 0).drop n =
        List.replicate (sogWidth n * sogHeight n - n) (0 : ℚ)) := by
  refine ⟨⟨⟨?_, le_sogWidth_sq n⟩, ?_⟩, ⟨le_sogWidth_mul_sogHeight n hn, ?_⟩,
    le_sogWidth_mul_sogHeight n hn, ?_, ?_, ?_⟩
  · unfold sogWidth
    omega
  · rintro w' ⟨hmod, hsq⟩
    have hceil := natCeilSqrt_min n w' hsq
    unfold sogWidth
    omega
  · intro h' hh'
    exact sogHeight_min n h' hn hh'
  · intro rows hlen
    unfold padTo
    rw [hlen]
    have := List.drop_left rows (List.replicate (sogWidth n * sogHeight n - n) v3zero)
    rwa [hlen] at this
  · intro rows hlen
    unfold padTo
    rw [hlen]
    have := List.drop_left rows (List.replicate (sogWidth n * sogHeight n - n) q4zero)
    rwa [hlen] at this
  · intro rows hlen
    unfold padTo
    rw [hlen]
    have := List.drop_left rows (List.replicate (sogWidth n * sogHeight n - n) (0 : ℚ))
    rwa [hlen] at this

/-- Witness for sog_plane_dims at n = 10 (width 4, height 3, 12 pixels). -/
theorem sog_plane_dims_witness :
    IsLeast {w | w % 4 = 0 ∧ 10 ≤ w * w} (sogWidth 10) ∧
    IsLeast {h | 10 ≤ sogWidth 10 * h} (sogHeight 10) ∧
    10 ≤ sogWidth 10 * sogHeight 10 ∧
    (∀ rows : List V3, rows.length = 10 →
      (padTo (sogWidth 10 * sogHeight 10) rows v3zero).drop 10 =
        List.replicate (sogWidth 10 * sogHeight 10 - 10) v3zero) ∧
    (∀ rows : List Q4, rows.length = 10 →
      (padTo (sogWidth 10 * sogHeight 10) rows q4zero).drop 10 =
        List.replicate (sogWidth 10 * sogHeight 10 - 10) q4zero) ∧
    (∀ rows : List ℚ, rows.length = 10 →
      (padTo (sogWidth 10 * sogHeight 10) rows 0).drop 10 =
        List.replicate (sogWidth 10 * sogHeight 10 - 10) (0 : ℚ)) :=
  sog_plane_dims 10 (by norm_num)

/-! ## Codebook theorems -/
theorem build_codebook_def (kmFit : List ℚ → Nat → List ℚ × List Nat)
    (values : List ℚ) (K : Nat) :
    build_codebook kmFit values K =
      (if min K values.dedup.length < K then
        (kmFit values (min K values.dedup.length)).1
          ++ List.replicate (K - min K values.dedup.length) 0
       else (kmFit values (min K values.dedup.length)).1,
       (kmFit values (min K values.dedup.length)).2) := rfl

/-- C5: for a non-empty value array and any requested cluster count K,
build_codebook returns a centroid table of exactly K entries, of which at
most K (namely min K U, with U the distinct-value count) are actual
centroids, and every returned index is below the actual cluster count —
hence below K; when U < K the actual cluster count is reduced to U, the
table is zero-padded from position U up to K, and every returned index is
below U.  The sklearn fit_predict call enters as the parameter kmFit,
constrained by its documented contract (one center per requested cluster,
labels in range). -/
theorem build_codebook_bounds (kmFit : List ℚ → Nat → List ℚ × List Nat)
    (values : List ℚ) (K : Nat) (hne : values ≠ [])
    (hlen : (kmFit values (min K values.dedup.length)).1.length
      = min K values.dedup.length)
    (hlab : ∀ i ∈ (kmFit values (min K values.dedup.length)).2,
      i < min K values.dedup.length) :
    (build_codebook kmFit values K).1.length = K ∧
    (∀ i ∈ (build_codebook kmFit values K).2, i < K) ∧
    (values.dedup.length < K →
      min K values.dedup.length = values.dedup.length ∧
      (build_codebook kmFit values K).1.drop values.dedup.length
        = List.replicate (K - values.dedup.length) 0 ∧
      ∀ i ∈ (build_codebook kmFit values K).2, i < values.dedup.length) := by
  rw [build_codebook_def]
  refine ⟨?_, ?_, ?_⟩
  · by_cases h : min K values.dedup.length < K
    · rw [if_pos h]
      simp only [List.length_append, List.length_replicate, hlen]
      omega
    · rw [if_neg h]
      simp only [hlen]
      omega
  · intro i hi
    have := hlab i hi
    omega
  · intro hU
    have hmin : min K values.dedup.length = values.dedup.length :=
      Nat.min_eq_right (le_of_lt hU)
    refine ⟨hmin, ?_, ?_⟩
    · rw [if_pos (by omega)]
      show ((kmFit values (min K values.dedup.length)).1
          ++ List.replicate (K - min K values.dedup.length) (0 : ℚ)).drop
            values.dedup.length
        = List.replicate (K - values.dedup.length) (0 : ℚ)
      rw [List.drop_left' (by rw [hlen, hmin]), hmin]
    · intro i hi
      have := hlab i hi
      omega

/-- Witness for build_codebook_bounds with values [1, 2], K = 3 and the
spec-modelled exact k-means fit. -/
theorem build_codebook_bounds_witness :
    (build_codebook kmeansFitExact [1, 2] 3).1.length = 3 ∧
    (∀ i ∈ (build_codebook kmeansFitExact [1, 2] 3).2, i < 3) ∧
    (([1, 2] : List ℚ).dedup.length < 3 →
      min 3 ([1, 2] : List ℚ).dedup.length = ([1, 2] : List ℚ).dedup.length ∧
      (build_codebook kmeansFitExact [1, 2] 3).1.drop ([1, 2] : List ℚ).dedup.length
        = List.replicate (3 - ([1, 2] : List ℚ).dedup.length) 0 ∧
      ∀ i ∈ (build_codebook kmeansFitExact [1, 2] 3).2,
        i < ([1, 2] : List ℚ).dedup.length) :=
  build_codebook_bounds kmeansFitExact [1, 2] 3 (by decide) (by decide) (by decide)

/-! ## Nearest-centroid lookup never selects a padding slot -/
theorem getD_eq_getElem_of_lt {α : Type} (l : List α) (n : Nat) (d : α)
    (h : n < l.length) : l.getD n d = l[n] := by
  rw [List.getD_eq_getElem?_getD, List.getElem?_eq_getElem h]
  rfl

theorem build_codebook_exact_eq (values : List ℚ)
    (hU : values.dedup.length < 256) :
    (build_codebook kmeansFitExact values 256).1
      = values.dedup ++ List.replicate (256 - values.dedup.length) 0 := by
  rw [build_codebook_def]
  show (if min 256 values.dedup.length < 256 then _ else _) = _
  rw [if_pos (by omega)]
  unfold kmeansFitExact
  have hmin : min 256 values.dedup.length = values.dedup.length := by omega
  rw [hmin]

/-- The vectorized nearest-centroid lookup np.argmin over the padded
codebook built from the distinct values: every input value selects an
index below the distinct-value count, never a zero-padding slot. -/
theorem idxOfMin_abs_lt (values : List ℚ) (v : ℚ) (hv : v ∈ values)
    (hU : values.dedup.length < 256) :
    idxOfMin (((build_codebook kmeansFitExact values 256).1).map
      fun e => |v - e|) < values.dedup.length := by
  have hcb := build_codebook_exact_eq values hU
  set cb := (build_codebook kmeansFitExact values 256).1 with hcbdef
  have hlen : cb.length = 256 := by
    rw [hcb]
    simp
    omega
  have hvd : v ∈ values.dedup := List.mem_dedup.mpr hv
  have hiU : values.dedup.indexOf v < values.dedup.length :=
    List.indexOf_lt_length.mpr hvd
  have hicb : values.dedup.indexOf v < cb.length := by omega
  have hcbi : cb.getD (values.dedup.indexOf v) 0 = v := by
    rw [hcb, List.getD_eq_getElem?_getD, List.getElem?_append_left hiU,
      List.getElem?_indexOf hvd]
    rfl
  have hdlen : (cb.map fun e => |v - e|).length = cb.length := by simp
  have hdi : (cb.map fun e => |v - e|).getD (values.dedup.indexOf v) 0 = 0 := by
    rw [getD_eq_getElem_of_lt _ _ 0 (by omega)]
    rw [List.getElem_map]
    rw [← getD_eq_getElem_of_lt cb _ 0 hicb, hcbi]
    simp
  have hle := idxOfMin_le (cb.map fun e => |v - e|) (values.dedup.indexOf v)
    (by omega) ?_
  · omega
  · intro j hj
    rw [hdi]
    rw [getD_eq_getElem_of_lt _ _ 0 hj]
    rw [List.getElem_map]
    exact abs_nonneg _

theorem mem_flat3 (l : List V3) (s : V3) (hs : s ∈ l) (a : Fin 3) :
    s a ∈ (l.map fun p => [p 0, p 1, p 2]).flatten := by
  rw [List.mem_flatten]
  refine ⟨[s 0, s 1, s 2], List.mem_map_of_mem _ hs, ?_⟩
  fin_cases a <;> simp

/-- C1: when the flattened scale (resp. color) values have fewer than 256
distinct elements, every 8-bit index emitted by encode_scales_sog (resp.
every color index emitted by encode_colors_opacity_sog) is below the
distinct-value count — the region of the codebook holding actual k-means
centroids — and the codebook slots from that count up to 256 are exactly
the zero padding, so no emitted index ever references a padding slot. -/
theorem sog_codebook_indices_avoid_padding
    (scales colors : List V3) (opacities : List ℚ)
    (hUs : ((scales.map fun s => [s 0, s 1, s 2]).flatten).dedup.length < 256)
    (hUc : ((colors.map fun c => [c 0, c 1, c 2]).flatten).dedup.length < 256) :
    (∀ row ∈ (encode_scales_sog kmeansFitExact scales).1, ∀ a : Fin 3,
      row a < ((scales.map fun s => [s 0, s 1, s 2]).flatten).dedup.length) ∧
    (encode_scales_sog kmeansFitExact scales).2.drop
        ((scales.map fun s => [s 0, s 1, s 2]).flatten).dedup.length
      = List.replicate
          (256 - ((scales.map fun s => [s 0, s 1, s 2]).flatten).dedup.length)
          (0 : ℚ) ∧
    (∀ row ∈ (encode_colors_opacity_sog kmeansFitExact colors opacities).1,
      ∀ a : Fin 4, ∀ h3 : a.val < 3,
        row a < ((colors.map fun c => [c 0, c 1, c 2]).flatten).dedup.length) ∧
    (encode_colors_opacity_sog kmeansFitExact colors opacities).2.drop
        ((colors.map fun c => [c 0, c 1, c 2]).flatten).dedup.length
      = List.replicate
          (256 - ((colors.map fun c => [c 0, c 1, c 2]).flatten).dedup.length)
          (0 : ℚ) := by
  have hcbS := build_codebook_exact_eq
    ((scales.map fun s => [s 0, s 1, s 2]).flatten) hUs
  have hcbC := build_codebook_exact_eq
    ((colors.map fun c => [c 0, c 1, c 2]).flatten) hUc
  refine ⟨?_, ?_, ?_, ?_⟩
  · intro row hrow a
    simp only [encode_scales_sog] at hrow
    obtain ⟨s, hs, hrows⟩ := List.mem_map.mp hrow
    subst hrows
    exact idxOfMin_abs_lt _ (s a) (mem_flat3 scales s hs a) hUs
  · show ((build_codebook kmeansFitExact
        ((scales.map fun s => [s 0, s 1, s 2]).flatten) 256).1).drop _ = _
    rw [hcbS]
    exact List.drop_left' rfl
  · intro row hrow a h3
    simp only [encode_colors_opacity_sog] at hrow
    obtain ⟨co, hco, hrowc⟩ := List.mem_map.mp hrow
    subst hrowc
    simp only [dif_pos h3]
    have hmem : co.1 ∈ colors := (List.of_mem_zip hco).1
    exact idxOfMin_abs_lt _ (co.1 ⟨a.val, h3⟩)
      (mem_flat3 colors co.1 hmem ⟨a.val, h3⟩) hUc
  · show ((build_codebook kmeansFitExact
        ((colors.map fun c => [c 0, c 1, c 2]).flatten) 256).1).drop _ = _
    rw [hcbC]
    exact List.drop_left' rfl

/-- Witness for sog_codebook_indices_avoid_padding on a one-row batch. -/
theorem sog_codebook_indices_avoid_padding_witness :
    (∀ row ∈ (encode_scales_sog kmeansFitExact [![1, 2, 3]]).1, ∀ a : Fin 3,
      row a < ((([![1, 2, 3]] : List V3).map
        fun s => [s 0, s 1, s 2]).flatten).dedup.length) ∧
    (encode_scales_sog kmeansFitExact [![1, 2, 3]]).2.drop
        ((([![1, 2, 3]] : List V3).map fun s => [s 0, s 1, s 2]).flatten).dedup.length
      = List.replicate
          (256 - ((([![1, 2, 3]] : List V3).map
            fun s => [s 0, s 1, s 2]).flatten).dedup.length) (0 : ℚ) ∧
    (∀ row ∈ (encode_colors_opacity_sog kmeansFitExact [![4, 5, 6]] [1/2]).1,
      ∀ a : Fin 4, ∀ h3 : a.val < 3,
        row a < ((([![4, 5, 6]] : List V3).map
          fun c => [c 0, c 1, c 2]).flatten).dedup.length) ∧
    (encode_colors_opacity_sog kmeansFitExact [![4, 5, 6]] [1/2]).2.drop
        ((([![4, 5, 6]] : List V3).map fun c => [c 0, c 1, c 2]).flatten).dedup.length
      = List.replicate
          (256 - ((([![4, 5, 6]] : List V3).map
            fun c => [c 0, c 1, c 2]).flatten).dedup.length) (0 : ℚ) :=
  sog_codebook_indices_avoid_padding [![1, 2, 3]] [![4, 5, 6]] [1/2]
    (by decide) (by decide)

/-! ## Quaternion encoder theorems -/
theorem npSign_of_neg (x : ℚ) (h : x < 0) : npSign x = -1 := by
  unfold npSign
  rw [if_neg (by linarith), if_pos h]

theorem npSign_of_pos (x : ℚ) (h : 0 < x) : npSign x = 1 := by
  unfold npSign
  rw [if_pos h]

theorem npSign_zero : npSign 0 = 0 := by
  unfold npSign
  norm_num

theorem quatSignFlip_of_neg (x : ℚ) (h : x < 0) : quatSignFlip x = -1 := by
  unfold quatSignFlip
  rw [npSign_of_neg x h, if_neg (by norm_num)]

theorem quatSignFlip_of_pos (x : ℚ) (h : 0 < x) : quatSignFlip x = 1 := by
  unfold quatSignFlip
  rw [npSign_of_pos x h, if_neg (by norm_num)]

theorem quatSignFlip_zero : quatSignFlip 0 = 1 := by
  unfold quatSignFlip
  rw [npSign_zero, if_pos rfl]

theorem quatSignFlip_cases (x : ℚ) : quatSignFlip x = 1 ∨ quatSignFlip x = -1 := by
  rcases lt_trichotomy x 0 with h | h | h
  · right
    exact quatSignFlip_of_neg x h
  · left
    rw [h]
    exact quatSignFlip_zero
  · left
    exact quatSignFlip_of_pos x h

theorem quatSignFlip_ne_zero (x : ℚ) : quatSignFlip x ≠ 0 := by
  rcases quatSignFlip_cases x with h | h <;> rw [h] <;> norm_num

theorem abs_quatSignFlip (x : ℚ) : |quatSignFlip x| = 1 := by
  rcases quatSignFlip_cases x with h | h <;> rw [h] <;> norm_num

theorem mul_quatSignFlip_nonneg (x : ℚ) : 0 ≤ x * quatSignFlip x := by
  rcases lt_trichotomy x 0 with h | h | h
  · rw [quatSignFlip_of_neg x h]
    nlinarith
  · subst h
    simp
  · rw [quatSignFlip_of_pos x h]
    nlinarith

theorem quatNormDivisor_pos (sqrtFn : ℚ → ℚ) (q : Q4) :
    0 < quatNormDivisor sqrtFn q := by
  unfold quatNormDivisor
  show 0 < if 0 < sqrtFn (q 0 ^ 2 + q 1 ^ 2 + q 2 ^ 2 + q 3 ^ 2) then
    sqrtFn (q 0 ^ 2 + q 1 ^ 2 + q 2 ^ 2 + q 3 ^ 2) else 1
  split_ifs with h
  · exact h
  · norm_num

theorem ne_of_mem_keptIdx {d j : Fin 4} (h : j ∈ keptIdx d) : j ≠ d := by
  unfold keptIdx at h
  simp only [List.mem_filter, decide_eq_true_eq] at h
  exact h.2

theorem kept_sq_sum_le (q : Q4)
    (hunit : q 0 ^ 2 + q 1 ^ 2 + q 2 ^ 2 + q 3 ^ 2 = 1)
    (dd jj : Fin 4) (h : jj ≠ dd) : q jj ^ 2 + q dd ^ 2 ≤ 1 := by
  fin_cases jj <;> fin_cases dd <;> simp_all <;>
    nlinarith [sq_nonneg (q 0), sq_nonneg (q 1), sq_nonneg (q 2), sq_nonneg (q 3)]

/-- C2: on a unit quaternion the encoder drops the component of largest
absolute value (byte 3 holds its index), the sign flip makes the dropped
component non-negative, every kept component of the flipped quaternion lies
in the closed interval from minus sqrt2over2 to sqrt2over2 (so the clamp
does not alter it), and the three kept components are mapped by the plain
affine map onto bytes 0 to 255.  sqrt2over2 is constrained only by the
properties of the float constant np.sqrt(2)/2 that the argument uses: it is
positive and twice its square is at least 1. -/
theorem encode_quaternions_unit (sqrtFn : ℚ → ℚ) (c : ℚ) (q : Q4)
    (hsq : sqrtFn 1 = 1) (hc : 0 < c) (hc2 : 1 ≤ 2 * c ^ 2)
    (hunit : q 0 ^ 2 + q 1 ^ 2 + q 2 ^ 2 + q 3 ^ 2 = 1) :
    (∀ i, |q i| ≤ |q (argmax4 fun i => |q i|)|) ∧
    0 ≤ q (argmax4 fun i => |q i|) *
      quatSignFlip (q (argmax4 fun i => |q i|)) ∧
    (∀ j ∈ keptIdx (argmax4 fun i => |q i|),
      |q j * quatSignFlip (q (argmax4 fun i => |q i|))| ≤ c) ∧
    encode_quaternions_sog sqrtFn c q =
      ((keptIdx (argmax4 fun i => |q i|)).map fun j =>
        Int.toNat ⌊(q j * quatSignFlip (q (argmax4 fun i => |q i|)) / c + 1)
          * (255 / 2)⌋) ++ [(argmax4 fun i => |q i|).val] ∧
    ∀ b ∈ encode_quaternions_sog sqrtFn c q, b ≤ 255 := by
  have hdiv : quatNormDivisor sqrtFn q = 1 := by
    unfold quatNormDivisor
    show (if 0 < sqrtFn (q 0 ^ 2 + q 1 ^ 2 + q 2 ^ 2 + q 3 ^ 2) then
      sqrtFn (q 0 ^ 2 + q 1 ^ 2 + q 2 ^ 2 + q 3 ^ 2) else 1) = 1
    rw [hunit, hsq, if_pos (by norm_num)]
  have hmax : ∀ i, |q i| ≤ |q (argmax4 fun i => |q i|)| :=
    fun i => le_argmax4 (fun i => |q i|) i
  set d : Fin 4 := argmax4 fun i => |q i| with hd
  set s : ℚ := quatSignFlip (q d) with hs
  have habs_s : |s| = 1 := abs_quatSignFlip (q d)
  have hkept_le : ∀ j, j ≠ d → |q j * s| ≤ c := by
    intro j hj
    rw [abs_mul, habs_s, mul_one]
    have h2 : q j ^ 2 ≤ q d ^ 2 := by
      have h1 := hmax j
      nlinarith [abs_nonneg (q j), abs_nonneg (q d), sq_abs (q j), sq_abs (q d)]
    have hsum : q j ^ 2 + q d ^ 2 ≤ 1 := kept_sq_sum_le q hunit d j hj
    have hqc : q j ^ 2 ≤ c ^ 2 := by linarith
    by_contra hcon
    push_neg at hcon
    nlinarith [sq_abs (q j), abs_nonneg (q j)]
  have hbytes : ∀ j, j ≠ d →
      toU8 ((min (max (q j * s) (-c)) c / c + 1) * (255 / 2)) =
        Int.toNat ⌊(q j * s / c + 1) * (255 / 2)⌋ ∧
      Int.toNat ⌊(q j * s / c + 1) * (255 / 2)⌋ ≤ 255 := by
    intro j hj
    have hle := hkept_le j hj
    rw [abs_le] at hle
    have hclip : min (max (q j * s) (-c)) c = q j * s := by
      rw [max_eq_left hle.1, min_eq_left hle.2]
    have hq1 : q j * s / c ≤ 1 := by
      rw [div_le_one hc]
      exact hle.2
    have hqm1 : -1 ≤ q j * s / c := by
      rw [le_div_iff₀ hc]
      linarith
    have hx0 : 0 ≤ (q j * s / c + 1) * (255 / 2) := by nlinarith
    have hx255 : (q j * s / c + 1) * (255 / 2) ≤ 255 := by nlinarith
    have hfl0 : 0 ≤ ⌊(q j * s / c + 1) * (255 / 2)⌋ := Int.floor_nonneg.mpr hx0
    have hfl255 : ⌊(q j * s / c + 1) * (255 / 2)⌋ ≤ 255 := by
      have := Int.floor_le_floor hx255
      simpa using this
    have hnat : Int.toNat ⌊(q j * s / c + 1) * (255 / 2)⌋ ≤ 255 := by omega
    refine ⟨?_, hnat⟩
    rw [hclip]
    unfold toU8
    exact Nat.mod_eq_of_lt (by omega)
  have hqn : (fun i => q i / quatNormDivisor sqrtFn q) = q := by
    funext i
    rw [hdiv, div_one]
  have henc : encode_quaternions_sog sqrtFn c q =
      ((keptIdx d).map fun j =>
        toU8 ((min (max (q j * s) (-c)) c / c + 1) * (255 / 2))) ++ [d.val] := by
    unfold encode_quaternions_sog
    simp only [hdiv, div_one]
  have henc2 : encode_quaternions_sog sqrtFn c q =
      ((keptIdx d).map fun j =>
        Int.toNat ⌊(q j * s / c + 1) * (255 / 2)⌋) ++ [d.val] := by
    rw [henc]
    congr 1
    apply List.map_congr_left
    intro j hjmem
    exact (hbytes j (ne_of_mem_keptIdx hjmem)).1
  refine ⟨hmax, mul_quatSignFlip_nonneg (q d), ?_, ?_, ?_⟩
  · intro j hjmem
    exact hkept_le j (ne_of_mem_keptIdx hjmem)
  · rw [henc2]
  · intro b hb
    rw [henc2] at hb
    rcases List.mem_append.mp hb with hb | hb
    · obtain ⟨j, hjmem, hbj⟩ := List.mem_map.mp hb
      rw [← hbj]
      exact (hbytes j (ne_of_mem_keptIdx hjmem)).2
    · have : b = d.val := by simpa using hb
      rw [this]
      omega

/-- Witness for encode_quaternions_unit at the identity quaternion with the
rational stand-in 3/4 for sqrt2over2. -/
theorem encode_quaternions_unit_witness :
    (∀ i, |(![1, 0, 0, 0] : Q4) i|
      ≤ |(![1, 0, 0, 0] : Q4) (argmax4 fun i => |(![1, 0, 0, 0] : Q4) i|)|) ∧
    0 ≤ (![1, 0, 0, 0] : Q4) (argmax4 fun i => |(![1, 0, 0, 0] : Q4) i|) *
      quatSignFlip ((![1, 0, 0, 0] : Q4)
        (argmax4 fun i => |(![1, 0, 0, 0] : Q4) i|)) ∧
    (∀ j ∈ keptIdx (argmax4 fun i => |(![1, 0, 0, 0] : Q4) i|),
      |(![1, 0, 0, 0] : Q4) j * quatSignFlip ((![1, 0, 0, 0] : Q4)
        (argmax4 fun i => |(![1, 0, 0, 0] : Q4) i|))| ≤ 3 / 4) ∧
    encode_quaternions_sog id (3 / 4) ![1, 0, 0, 0] =
      ((keptIdx (argmax4 fun i => |(![1, 0, 0, 0] : Q4) i|)).map fun j =>
        Int.toNat ⌊((![1, 0, 0, 0] : Q4) j * quatSignFlip ((![1, 0, 0, 0] : Q4)
          (argmax4 fun i => |(![1, 0, 0, 0] : Q4) i|)) / (3 / 4) + 1)
          * (255 / 2)⌋)
        ++ [(argmax4 fun i => |(![1, 0, 0, 0] : Q4) i|).val] ∧
    ∀ b ∈ encode_quaternions_sog id (3 / 4) ![1, 0, 0, 0], b ≤ 255 :=
  encode_quaternions_unit id (3 / 4) ![1, 0, 0, 0] rfl (by norm_num)
    (by norm_num) (by norm_num)

/-- C10: the quaternion encoder is total on every row, in particular on the
all-zero rows produced by grid padding: the normalization divisor is
positive for every input (a zero norm is replaced by 1), the sign
multiplier is never 0 (a zero sign is replaced by 1), and on the all-zero
quaternion the encoder produces the well-defined bytes [127, 127, 127, 0]
whenever the modelled float sqrt sends 0 to 0 and the sqrt2over2 constant
is positive. -/
theorem encode_quaternions_total_on_zero :
    (∀ (sqrtFn : ℚ → ℚ) (q : Q4), 0 < quatNormDivisor sqrtFn q) ∧
    (∀ x : ℚ, quatSignFlip x ≠ 0) ∧
    ∀ (sqrtFn : ℚ → ℚ) (c : ℚ), sqrtFn 0 = 0 → 0 < c →
      encode_quaternions_sog sqrtFn c q4zero = [127, 127, 127, 0] := by
  refine ⟨quatNormDivisor_pos, quatSignFlip_ne_zero, ?_⟩
  intro sqrtFn c hsq hc
  have hdiv : quatNormDivisor sqrtFn q4zero = 1 := by
    unfold quatNormDivisor
    show (if 0 < sqrtFn (q4zero 0 ^ 2 + q4zero 1 ^ 2 + q4zero 2 ^ 2 + q4zero 3 ^ 2)
      then sqrtFn (q4zero 0 ^ 2 + q4zero 1 ^ 2 + q4zero 2 ^ 2 + q4zero 3 ^ 2)
      else 1) = 1
    have h0 : q4zero 0 ^ 2 + q4zero 1 ^ 2 + q4zero 2 ^ 2 + q4zero 3 ^ 2 = 0 := by
      simp [q4zero]
    rw [h0, hsq, if_neg (by norm_num)]
  unfold encode_quaternions_sog
  simp only [hdiv, div_one]
  have hz : ∀ i : Fin 4, q4zero i = 0 := fun i => rfl
  simp only [hz, abs_zero, quatSignFlip_zero, mul_one]
  have hdz : argmax4 (fun _ : Fin 4 => (0 : ℚ)) = 0 := by
    unfold argmax4
    rw [if_pos (by norm_num)]
  rw [hdz]
  have hbyte : toU8 ((min (max (0 : ℚ) (-c)) c / c + 1) * (255 / 2)) = 127 := by
    rw [max_eq_left (by linarith), min_eq_left (by linarith), zero_div, zero_add,
      one_mul]
    unfold toU8
    have hfl : ⌊(255 / 2 : ℚ)⌋ = 127 := by norm_num
    rw [hfl]
    rfl
  have hkept : keptIdx 0 = [1, 2, 3] := by decide
  rw [hkept]
  simp only [List.map_cons, List.map_nil, hbyte]
  rfl

/-- Witness for the zero-row branch of encode_quaternions_total_on_zero. -/
theorem encode_quaternions_total_on_zero_witness :
    encode_quaternions_sog id (3 / 4) q4zero = [127, 127, 127, 0] :=
  encode_quaternions_total_on_zero.2.2 id (3 / 4) rfl (by norm_num)

/-- C3: the four Shepperd branches are mutually exclusive and exhaustive
for every input matrix; a positive trace selects the w-first branch; when
the trace is not positive, a strictly largest diagonal element selects the
corresponding branch, and each selected branch's first-derived diagonal
element is maximal on the diagonal; in every branch the remaining three
components are the stated off-diagonal sums or differences divided by
s = 2 * sqrt(1 + diagonal terms). -/
theorem shepperd_branches (sqrtFn : ℚ → ℚ) (m : M3) :
    (mask1 m ∨ mask2 m ∨ mask3 m ∨ mask4 m) ∧
    ¬(mask1 m ∧ mask2 m) ∧ ¬(mask1 m ∧ mask3 m) ∧ ¬(mask1 m ∧ mask4 m) ∧
    ¬(mask2 m ∧ mask3 m) ∧ ¬(mask2 m ∧ mask4 m) ∧ ¬(mask3 m ∧ mask4 m) ∧
    (¬mask1 m →
      (m 0 0 > m 1 1 ∧ m 0 0 > m 2 2 → mask2 m) ∧
      (m 1 1 > m 0 0 ∧ m 1 1 > m 2 2 → mask3 m) ∧
      (m 2 2 > m 0 0 ∧ m 2 2 > m 1 1 → mask4 m)) ∧
    (mask1 m → shepperdRaw sqrtFn m =
      ![0.25 * (sqrtFn (shepperdTrace m + 1) * 2),
        (m 2 1 - m 1 2) / (sqrtFn (shepperdTrace m + 1) * 2),
        (m 0 2 - m 2 0) / (sqrtFn (shepperdTrace m + 1) * 2),
        (m 1 0 - m 0 1) / (sqrtFn (shepperdTrace m + 1) * 2)]) ∧
    (mask2 m → (m 1 1 ≤ m 0 0 ∧ m 2 2 ≤ m 0 0) ∧ shepperdRaw sqrtFn m =
      ![(m 2 1 - m 1 2) / (sqrtFn (1 + m 0 0 - m 1 1 - m 2 2) * 2),
        0.25 * (sqrtFn (1 + m 0 0 - m 1 1 - m 2 2) * 2),
        (m 0 1 + m 1 0) / (sqrtFn (1 + m 0 0 - m 1 1 - m 2 2) * 2),
        (m 0 2 + m 2 0) / (sqrtFn (1 + m 0 0 - m 1 1 - m 2 2) * 2)]) ∧
    (mask3 m → (m 0 0 ≤ m 1 1 ∧ m 2 2 ≤ m 1 1) ∧ shepperdRaw sqrtFn m =
      ![(m 0 2 - m 2 0) / (sqrtFn (1 + m 1 1 - m 0 0 - m 2 2) * 2),
        (m 0 1 + m 1 0) / (sqrtFn (1 + m 1 1 - m 0 0 - m 2 2) * 2),
        0.25 * (sqrtFn (1 + m 1 1 - m 0 0 - m 2 2) * 2),
        (m 1 2 + m 2 1) / (sqrtFn (1 + m 1 1 - m 0 0 - m 2 2) * 2)]) ∧
    (mask4 m → (m 0 0 ≤ m 2 2 ∧ m 1 1 ≤ m 2 2) ∧ shepperdRaw sqrtFn m =
      ![(m 1 0 - m 0 1) / (sqrtFn (1 + m 2 2 - m 0 0 - m 1 1) * 2),
        (m 0 2 + m 2 0) / (sqrtFn (1 + m 2 2 - m 0 0 - m 1 1) * 2),
        (m 1 2 + m 2 1) / (sqrtFn (1 + m 2 2 - m 0 0 - m 1 1) * 2),
        0.25 * (sqrtFn (1 + m 2 2 - m 0 0 - m 1 1) * 2)]) := by
  refine ⟨?_, ?_, ?_, ?_, ?_, ?_, ?_, ?_, ?_, ?_, ?_, ?_⟩
  · simp only [mask4, mask3, mask2, mask1]
    tauto
  · simp only [mask4, mask3, mask2, mask1]
    tauto
  · simp only [mask4, mask3, mask2, mask1]
    tauto
  · simp only [mask4, mask3, mask2, mask1]
    tauto
  · simp only [mask4, mask3, mask2, mask1]
    tauto
  · simp only [mask4, mask3, mask2, mask1]
    tauto
  · simp only [mask4, mask3, mask2, mask1]
    tauto
  · intro h1
    refine ⟨?_, ?_, ?_⟩
    · intro hd
      exact ⟨h1, hd⟩
    · intro hd
      refine ⟨h1, ?_, hd.2⟩
      intro hm2
      linarith [hd.1, hm2.2.1]
    · intro hd
      refine ⟨h1, ?_, ?_⟩
      · intro hm2
        linarith [hd.1, hm2.2.2]
      · intro hm3
        linarith [hd.2, hm3.2.2]
  · intro h
    have h1 : 0 < shepperdTrace m := h
    unfold shepperdRaw
    rw [if_pos h1]
  · rintro ⟨h1, h2, h3⟩
    have h1' : ¬0 < shepperdTrace m := h1
    refine ⟨⟨le_of_lt h2, le_of_lt h3⟩, ?_⟩
    unfold shepperdRaw
    rw [if_neg h1', if_pos ⟨h2, h3⟩]
  · rintro ⟨h1, h2, h3⟩
    have h1' : ¬0 < shepperdTrace m := h1
    have hnd : ¬(m 0 0 > m 1 1 ∧ m 0 0 > m 2 2) := fun hd => h2 ⟨h1, hd.1, hd.2⟩
    have hd : m 0 0 ≤ m 1 1 := by
      rcases not_and_or.mp hnd with h' | h'
      · push_neg at h'
        exact h'
      · push_neg at h'
        linarith
    refine ⟨⟨hd, le_of_lt h3⟩, ?_⟩
    unfold shepperdRaw
    rw [if_neg h1', if_neg hnd, if_pos h3]
  · rintro ⟨h1, h2, h3⟩
    have h1' : ¬0 < shepperdTrace m := h1
    have hnd : ¬(m 0 0 > m 1 1 ∧ m 0 0 > m 2 2) := fun hd => h2 ⟨h1, hd.1, hd.2⟩
    have h22 : m 1 1 ≤ m 2 2 := by
      by_contra hc
      push_neg at hc
      exact h3 ⟨h1, h2, hc⟩
    have h02 : m 0 0 ≤ m 2 2 := by
      rcases not_and_or.mp hnd with h' | h'
      · push_neg at h'
        linarith
      · push_neg at h'
        exact h'
    refine ⟨⟨h02, h22⟩, ?_⟩
    unfold shepperdRaw
    rw [if_neg h1', if_neg hnd, if_neg (by push_neg; exact h22)]

/-- Witness for shepperd_branches at the identity matrix (trace branch),
with the stand-in square root sending every input to 2. -/
theorem shepperd_branches_witness :
    mask1 (![![1, 0, 0], ![0, 1, 0], ![0, 0, 1]] : M3) ∧
    shepperdRaw (fun _ => 2) (![![1, 0, 0], ![0, 1, 0], ![0, 0, 1]] : M3)
      = ![1, 0, 0, 0] := by
  have h := shepperd_branches (fun _ => 2)
    (![![1, 0, 0], ![0, 1, 0], ![0, 0, 1]] : M3)
  have hm : mask1 (![![1, 0, 0], ![0, 1, 0], ![0, 0, 1]] : M3) := by
    unfold mask1 shepperdTrace
    norm_num
  refine ⟨hm, ?_⟩
  have h9 := h.2.2.2.2.2.2.2.2.1 hm
  rw [h9]
  funext i
  fin_cases i <;> simp [shepperdTrace, Matrix.vecHead, Matrix.vecTail] <;>
    norm_num

/-! ## Degenerate axis in the position encoder -/
theorem foldl_min_const (l : List ℚ) (c : ℚ) (h : ∀ x ∈ l, x = c) :
    l.foldl min c = c := by
  induction l with
  | nil => rfl
  | cons x xs ih =>
    rw [List.foldl_cons, h x (by simp), min_self]
    exact ih fun y hy => h y (by simp [hy])

theorem foldl_max_const (l : List ℚ) (c : ℚ) (h : ∀ x ∈ l, x = c) :
    l.foldl max c = c := by
  induction l with
  | nil => rfl
  | cons x xs ih =>
    rw [List.foldl_cons, h x (by simp), max_self]
    exact ih fun y hy => h y (by simp [hy])

theorem listMin_const (l : List ℚ) (c : ℚ) (hne : l ≠ []) (h : ∀ x ∈ l, x = c) :
    listMin l = c := by
  obtain ⟨x, xs, rfl⟩ := List.exists_cons_of_ne_nil hne
  unfold listMin
  rw [List.headD_cons, h x (by simp)]
  refine foldl_min_const _ c fun y hy => ?_
  rcases List.mem_cons.mp hy with h' | h'
  · exact h'
  · exact h y (by simp [h'])

theorem listMax_const (l : List ℚ) (c : ℚ) (hne : l ≠ []) (h : ∀ x ∈ l, x = c) :
    listMax l = c := by
  obtain ⟨x, xs, rfl⟩ := List.exists_cons_of_ne_nil hne
  unfold listMax
  rw [List.headD_cons, h x (by simp)]
  refine foldl_max_const _ c fun y hy => ?_
  rcases List.mem_cons.mp hy with h' | h'
  · exact h'
  · exact h y (by simp [h'])

/-- C8: when every position agrees on one axis, the log-transformed values
on that axis coincide, the raw quantization range is 0, the adjusted range
is forced to 1 (no division by zero), every 16-bit code on that axis is the
integer domain's minimum 0 — hence both emitted byte planes hold 0 on that
axis — and the encoder still succeeds (the degenerate case is never an
error). -/
theorem encode_positions_degenerate_axis (log1pFn : ℚ → ℚ) (ps : List V3)
    (a : Fin 3) (c : ℚ) (hne : ps ≠ []) (hconst : ∀ p ∈ ps, p a = c) :
    posRange log1pFn ps a = 0 ∧
    posRangeAdj log1pFn ps a = 1 ∧
    (∀ qv ∈ posQuant log1pFn ps, qv a = 0) ∧
    ∃ out, encode_positions_sog log1pFn ps = Except.ok out ∧
      (∀ r ∈ out.1, r a = 0) ∧ (∀ r ∈ out.2.1, r a = 0) := by
  have hlconst : ∀ p ∈ posLog log1pFn ps, p a = log_transform log1pFn c := by
    intro p hp
    obtain ⟨p0, hp0, rfl⟩ := List.mem_map.mp hp
    show log_transform log1pFn (p0 a) = _
    rw [hconst p0 hp0]
  have hmapne : (posLog log1pFn ps).map (fun p => p a) ≠ [] := by
    simp [posLog]
    exact hne
  have hmem : ∀ x ∈ (posLog log1pFn ps).map (fun p => p a),
      x = log_transform log1pFn c := by
    intro x hx
    obtain ⟨p, hp, rfl⟩ := List.mem_map.mp hx
    exact hlconst p hp
  have hmins : posMins log1pFn ps a = log_transform log1pFn c :=
    listMin_const _ _ hmapne hmem
  have hmaxs : posMaxs log1pFn ps a = log_transform log1pFn c :=
    listMax_const _ _ hmapne hmem
  have hrange : posRange log1pFn ps a = 0 := by
    unfold posRange
    rw [hmins, hmaxs, sub_self]
  have hadj : posRangeAdj log1pFn ps a = 1 := by
    unfold posRangeAdj
    rw [if_pos hrange]
  have hquant : ∀ qv ∈ posQuant log1pFn ps, qv a = 0 := by
    intro qv hqv
    obtain ⟨p, hp, rfl⟩ := List.mem_map.mp hqv
    show min 65535 (toU16 ((p a - posMins log1pFn ps a)
      / posRangeAdj log1pFn ps a * 65535)) = 0
    rw [hlconst p hp, hmins, sub_self, hadj, div_one, zero_mul]
    unfold toU16
    norm_num
  refine ⟨hrange, hadj, hquant, ?_⟩
  refine ⟨((posQuant log1pFn ps).map fun p a => p a % 256,
          (posQuant log1pFn ps).map fun p a => p a / 256,
          posMins log1pFn ps, posMaxs log1pFn ps), ?_, ?_, ?_⟩
  · unfold encode_positions_sog
    rw [if_neg hne]
  · intro r hr
    obtain ⟨qv, hqv, rfl⟩ := List.mem_map.mp hr
    show qv a % 256 = 0
    rw [hquant qv hqv]
  · intro r hr
    obtain ⟨qv, hqv, rfl⟩ := List.mem_map.mp hr
    show qv a / 256 = 0
    rw [hquant qv hqv]

/-- Witness for encode_positions_degenerate_axis: two positions sharing the
first coordinate, with the identity standing in for float log1p. -/
theorem encode_positions_degenerate_axis_witness :
    posRange id [![1, 2, 3], ![1, 5, 9]] 0 = 0 ∧
    posRangeAdj id [![1, 2, 3], ![1, 5, 9]] 0 = 1 ∧
    (∀ qv ∈ posQuant id [![1, 2, 3], ![1, 5, 9]], qv 0 = 0) ∧
    ∃ out, encode_positions_sog id [![1, 2, 3], ![1, 5, 9]] = Except.ok out ∧
      (∀ r ∈ out.1, r 0 = 0) ∧ (∀ r ∈ out.2.1, r 0 = 0) :=
  encode_positions_degenerate_axis id [![1, 2, 3], ![1, 5, 9]] 0 1
    (by decide) (by decide)

/-! ## Morton order theorems -/
theorem mortonCodes_length (ps : List V3) : (mortonCodes ps).length = ps.length := by
  unfold mortonCodes mortonQuant
  simp

/-- Any permutation that sorts a strictly increasing code list in
nondecreasing order is the identity permutation on indices. -/
theorem sorting_perm_of_strict_sorted (codes p : List Nat)
    (hsb : SortsBy codes p) (hstrict : codes.Sorted (· < ·)) :
    p = List.range codes.length := by
  obtain ⟨hperm, hsorted⟩ := hsb
  have hlen : p.length = codes.length := by
    rw [hperm.length_eq, List.length_range]
  have hnodup : p.Nodup := hperm.nodup_iff.mpr (List.nodup_range codes.length)
  have helem : ∀ (i : Nat) (hi : i < p.length), p[i] < codes.length := by
    intro i hi
    exact List.mem_range.mp (hperm.subset (List.getElem_mem hi))
  have hcstrict := List.pairwise_iff_getElem.mp hstrict
  have hmap := List.pairwise_iff_getElem.mp hsorted
  have hplt : p.Sorted (· < ·) := by
    rw [List.Sorted, List.pairwise_iff_getElem]
    intro i j hi hj hij
    have hi' : i < (p.map fun k => codes.getD k 0).length := by
      rw [List.length_map]
      exact hi
    have hj' : j < (p.map fun k => codes.getD k 0).length := by
      rw [List.length_map]
      exact hj
    have hle := hmap i j hi' hj' hij
    rw [List.getElem_map, List.getElem_map] at hle
    rw [getD_eq_getElem_of_lt codes _ 0 (helem i hi),
      getD_eq_getElem_of_lt codes _ 0 (helem j hj)] at hle
    by_contra hcon
    push_neg at hcon
    have hne2 : p[i] ≠ p[j] := by
      intro he
      exact absurd ((hnodup.getElem_inj_iff).mp he) (by omega)
    have hjlt : p[j] < p[i] := by omega
    have := hcstrict p[j] p[i] (helem j hj) (helem i hi) hjlt
    omega
  have hple : p.Sorted (· ≤ ·) := hplt.imp Nat.le_of_lt
  exact List.eq_of_perm_of_sorted hperm hple
    (List.pairwise_le_range codes.length)

/-- C4 (amended): compute_morton_order returns np.argsort of the Morton
codes; np.argsort's default quicksort contract only promises a sorting
permutation, with no stability guarantee, so the identity result is
guaranteed exactly on batches whose Morton codes are strictly increasing
(already sorted, all codes distinct). -/
theorem compute_morton_order_identity_of_distinct_sorted
    (argsortFn : List Nat → List Nat) (ps : List V3) (hne : ps ≠ [])
    (hsb : SortsBy (mortonCodes ps) (argsortFn (mortonCodes ps)))
    (hstrict : (mortonCodes ps).Sorted (· < ·)) :
    compute_morton_order argsortFn ps = Except.ok (List.range ps.length) := by
  unfold compute_morton_order
  rw [if_neg hne]
  rw [sorting_perm_of_strict_sorted (mortonCodes ps) (argsortFn (mortonCodes ps))
    hsb hstrict]
  rw [mortonCodes_length]

theorem mortonCodes_zero_pair : mortonCodes [v3zero, v3zero] = [0, 0] := by
  unfold mortonCodes mortonQuant listMin listMax v3zero
  norm_num
  decide

theorem mortonCodes_unit_pair :
    mortonCodes [![0, 0, 0], ![1, 1, 1]] = [0, 1073741823] := by
  unfold mortonCodes mortonQuant listMin listMax
  norm_num
  decide

/-- Witness for the amended Morton identity theorem: two positions with
distinct Morton codes (0 and 1073741823) and a contract-satisfying argsort
stand-in. -/
theorem compute_morton_order_identity_witness :
    compute_morton_order (fun _ => [0, 1]) [![0, 0, 0], ![1, 1, 1]]
      = Except.ok (List.range 2) :=
  compute_morton_order_identity_of_distinct_sorted (fun _ => [0, 1])
    [![0, 0, 0], ![1, 1, 1]] (by decide)
    (by rw [mortonCodes_unit_pair]; decide)
    (by rw [mortonCodes_unit_pair]; decide)

/-- Counterexample to C4 as stated: on a batch that is already sorted by
Morton code but contains a tie (two identical positions, codes [0, 0]),
the documented contract of np.argsort's default quicksort — which is not
stable — admits the sorting permutation [1, 0], under which
compute_morton_order returns a non-identity permutation. -/
theorem compute_morton_order_tie_counterexample :
    SortsBy (mortonCodes [v3zero, v3zero]) [1, 0] ∧
    (mortonCodes [v3zero, v3zero]).Sorted (· ≤ ·) ∧
    compute_morton_order (fun _ => [1, 0]) [v3zero, v3zero]
      = Except.ok [1, 0] ∧
    [1, 0] ≠ List.range 2 := by
  refine ⟨?_, ?_, ?_, by decide⟩
  · rw [mortonCodes_zero_pair]
    decide
  · rw [mortonCodes_zero_pair]
    decide
  · unfold compute_morton_order
    rw [if_neg (by decide)]

/-! ## Pipeline theorems (save_sog_bytes) -/
/-- C6: invoked with zero Gaussians, the pipeline fails before producing
any plane or assembling an archive: the very first step, the Morton
reduction positions.min(axis=0), raises on the empty batch and the error
propagates out of save_sog_bytes. -/
theorem save_sog_empty_errors (env : SogEnv) (f_px : ℚ)
    (imageHeight imageWidth : Nat) :
    save_sog_bytes env [] [] [] [] [] f_px imageHeight imageWidth
      = Except.error
        "zero-size array to reduction operation minimum which has no identity" := by
  unfold save_sog_bytes compute_morton_order
  rfl

theorem applyPerm_length {V : Type} (ord : List Nat) (xs : List V) (z : V) :
    (applyPerm ord xs z).length = ord.length := by
  unfold applyPerm
  simp

theorem padTo_length {V : Type} (total : Nat) (rows : List V) (z : V)
    (h : rows.length ≤ total) : (padTo total rows z).length = total := by
  unfold padTo
  simp
  omega

theorem posQuant_length (log1pFn : ℚ → ℚ) (ps : List V3) :
    (posQuant log1pFn ps).length = ps.length := by
  unfold posQuant posLog
  simp

/-- C9: on any non-empty batch (with np.argsort constrained to return one
index per Gaussian), save_sog_bytes succeeds and assembles the archive as
a tar entry list with meta.json first followed by exactly the five planes
means_l.webp, means_u.webp, quats.webp, scales.webp, sh0.webp, and the
metadata's numGaussians field is the true pre-padding Gaussian count. -/
theorem save_sog_archive_layout (env : SogEnv) (xyz scalesLog : List V3)
    (quats : List Q4) (colorsSh : List V3) (opacities : List ℚ) (f_px : ℚ)
    (imageHeight imageWidth : Nat) (hne : xyz ≠ [])
    (hsort : (env.argsortFn (mortonCodes xyz)).length = xyz.length) :
    ∃ A, save_sog_bytes env xyz scalesLog quats colorsSh opacities f_px
        imageHeight imageWidth = Except.ok A ∧
      A.map Prod.fst = ["meta.json", "means_l.webp", "means_u.webp",
        "quats.webp", "scales.webp", "sh0.webp"] ∧
      ∃ meta, A.head? = some ("meta.json", SogPayload.json meta) ∧
        meta.numGaussians = xyz.length := by
  have hn1 : 1 ≤ xyz.length := List.length_pos.mpr hne
  have hm : compute_morton_order env.argsortFn xyz
      = Except.ok (env.argsortFn (mortonCodes xyz)) := by
    unfold compute_morton_order
    rw [if_neg hne]
  have hwpos := sogWidth_pos xyz.length hn1
  have hw : ¬ sogWidth xyz.length = 0 := by omega
  have htot : xyz.length ≤ sogWidth xyz.length * sogHeight xyz.length :=
    le_sogWidth_mul_sogHeight xyz.length hn1
  have hmortlen : ∀ (V : Type) (xs : List V) (z : V),
      (applyPerm (env.argsortFn (mortonCodes xyz)) xs z).length = xyz.length := by
    intro V xs z
    rw [applyPerm_length, hsort]
  have hpadlen : ∀ (V : Type) (xs : List V) (z : V),
      (padTo (sogWidth xyz.length * sogHeight xyz.length)
        (applyPerm (env.argsortFn (mortonCodes xyz)) xs z) z).length
      = sogWidth xyz.length * sogHeight xyz.length := by
    intro V xs z
    rw [padTo_length]
    rw [hmortlen]
    exact htot
  have hxyzPne : padTo (sogWidth xyz.length * sogHeight xyz.length)
      (applyPerm (env.argsortFn (mortonCodes xyz)) xyz v3zero) v3zero ≠ [] := by
    intro hc
    have h2 := congrArg List.length hc
    rw [hpadlen V3 xyz v3zero] at h2
    simp only [List.length_nil] at h2
    omega
  have hpos : encode_positions_sog env.log1pFn
      (padTo (sogWidth xyz.length * sogHeight xyz.length)
        (applyPerm (env.argsortFn (mortonCodes xyz)) xyz v3zero) v3zero)
      = Except.ok
        ((posQuant env.log1pFn (padTo (sogWidth xyz.length * sogHeight xyz.length)
          (applyPerm (env.argsortFn (mortonCodes xyz)) xyz v3zero) v3zero)).map
            fun p a => p a % 256,
         (posQuant env.log1pFn (padTo (sogWidth xyz.length * sogHeight xyz.length)
          (applyPerm (env.argsortFn (mortonCodes xyz)) xyz v3zero) v3zero)).map
            fun p a => p a / 256,
         posMins env.log1pFn (padTo (sogWidth xyz.length * sogHeight xyz.length)
          (applyPerm (env.argsortFn (mortonCodes xyz)) xyz v3zero) v3zero),
         posMaxs env.log1pFn (padTo (sogWidth xyz.length * sogHeight xyz.length)
          (applyPerm (env.argsortFn (mortonCodes xyz)) xyz v3zero) v3zero)) := by
    unfold encode_positions_sog
    rw [if_neg hxyzPne]
  unfold save_sog_bytes
  rw [hm]
  simp only [if_neg hw, hpos]
  have hweb1 : ∀ (rows : List (Fin 3 → Nat)),
      rows.length = sogWidth xyz.length * sogHeight xyz.length →
      toWebp (rows.map fun r => [r 0, r 1, r 2]) (sogWidth xyz.length)
        (sogHeight xyz.length)
      = Except.ok (rows.map fun r => [r 0, r 1, r 2]) := by
    intro rows hlen
    unfold toWebp
    rw [if_pos (by simp [hlen])]
  have hweb4 : ∀ (rows : List (Fin 4 → Nat)),
      rows.length = sogWidth xyz.length * sogHeight xyz.length →
      toWebp (rows.map fun r => [r 0, r 1, r 2, r 3]) (sogWidth xyz.length)
        (sogHeight xyz.length)
      = Except.ok (rows.map fun r => [r 0, r 1, r 2, r 3]) := by
    intro rows hlen
    unfold toWebp
    rw [if_pos (by simp [hlen])]
  rw [hweb1 _ (by rw [List.length_map, posQuant_length, hpadlen])]
  rw [hweb1 _ (by rw [List.length_map, posQuant_length, hpadlen])]
  have hwebq : toWebp ((padTo (sogWidth xyz.length * sogHeight xyz.length)
        (applyPerm (env.argsortFn (mortonCodes xyz)) quats q4zero) q4zero).map
        (encode_quaternions_sog env.sqrtFn env.sqrt2over2))
      (sogWidth xyz.length) (sogHeight xyz.length)
      = Except.ok ((padTo (sogWidth xyz.length * sogHeight xyz.length)
        (applyPerm (env.argsortFn (mortonCodes xyz)) quats q4zero) q4zero).map
        (encode_quaternions_sog env.sqrtFn env.sqrt2over2)) := by
    unfold toWebp
    rw [if_pos (by rw [List.length_map, hpadlen])]
  rw [hwebq]
  have hsc : ((encode_scales_sog env.kmFit
      (padTo (sogWidth xyz.length * sogHeight xyz.length)
        (applyPerm (env.argsortFn (mortonCodes xyz)) scalesLog v3zero)
        v3zero)).1).length
      = sogWidth xyz.length * sogHeight xyz.length := by
    unfold encode_scales_sog
    rw [List.length_map, hpadlen]
  rw [hweb1 _ hsc]
  have hsh : ((encode_colors_opacity_sog env.kmFit
      (padTo (sogWidth xyz.length * sogHeight xyz.length)
        (applyPerm (env.argsortFn (mortonCodes xyz)) colorsSh v3zero) v3zero)
      (padTo (sogWidth xyz.length * sogHeight xyz.length)
        (applyPerm (env.argsortFn (mortonCodes xyz)) opacities 0) 0)).1).length
      = sogWidth xyz.length * sogHeight xyz.length := by
    unfold encode_colors_opacity_sog
    rw [List.length_map, List.length_zip, hpadlen, hpadlen]
    exact Nat.min_self _
  rw [hweb4 _ hsh]
  refine ⟨_, rfl, by simp, ?_⟩
  refine ⟨_, rfl, rfl⟩

/-- Witness for save_sog_archive_layout on a one-Gaussian batch with
concrete stand-ins for the external collaborators. -/
theorem save_sog_archive_layout_witness :
    ∃ A, save_sog_bytes
        ⟨id, id, 3 / 4, kmeansFitExact, fun l => List.range l.length⟩
        [![0, 0, 0]] [![0, 0, 0]] [q4zero] [![0, 0, 0]] [0] 1000 768 1024
      = Except.ok A ∧
      A.map Prod.fst = ["meta.json", "means_l.webp", "means_u.webp",
        "quats.webp", "scales.webp", "sh0.webp"] ∧
      ∃ meta, A.head? = some ("meta.json", SogPayload.json meta) ∧
        meta.numGaussians = ([![0, 0, 0]] : List V3).length :=
  save_sog_archive_layout
    ⟨id, id, 3 / 4, kmeansFitExact, fun l => List.range l.length⟩
    [![0, 0, 0]] [![0, 0, 0]] [q4zero] [![0, 0, 0]] [0] 1000 768 1024
    (by simp) (by simp [mortonCodes_length])
